import Mathlib

/-!
Verification of the Groovi browser voice client core.

This file gives a shallow embedding, in Lean, of the real-time audio
capture pipeline (resampler, frame accumulator, capture-session
lifecycle) and of the voice session client (connection lifecycle,
inbound dispatch, outbound audio) together with the interaction state
machine derived in the application component, and proves the testable
properties stated for them.

Machine integers of the source (Int16Array samples) are modelled as
Lean integers: the source never performs arithmetic on sample values,
only moves them, so no overflow modelling is needed.  The resampler
computes its ratio, output length and source indices with IEEE-754
binary64 (double) arithmetic; that arithmetic is modelled exactly
(`roundRat` below is round-to-nearest-even with a 53-bit significand,
which in the normal range is precisely binary64 division and
multiplication of exactly representable operands), because at some
source rates the floored double results differ from the exact integer
formulas of the specification.  The exact-arithmetic reading of the
contract is kept as a separate reference function and the two are
proved to coincide exactly when the source rate is a multiple of the
target rate.
-/

namespace Groovi

/-- Target sample rate for voice models (16 kHz), from useAudioCapture. -/
def TARGET_SAMPLE_RATE : Nat := 16000

/-- VAD chunk size: exactly 512 samples at 16 kHz, from useAudioCapture. -/
def VAD_CHUNK_SIZE : Nat := 512

/-- Exact-arithmetic reference reading of the resampler contract: if
the source rate equals the target rate the buffer is passed through
unchanged; otherwise the output has length ⌊N·Rt/Rs⌋ and output sample
i is the input sample at index ⌊i·Rs/Rt⌋, with exact integer floor
division.  The source computes these quantities in binary64
arithmetic instead — that faithful embedding is `downsampleJS` below —
and the two are proved equal whenever the source rate is a positive
multiple of the target rate (realistically sized, see
`downsampleJS_eq_downsample`); at other rates they can differ.
Out-of-range reads yield 0, matching Int16Array semantics. -/
def downsample (buffer : List Int) (fromRate : Nat) : List Int :=
  if fromRate = TARGET_SAMPLE_RATE then buffer
  else
    let newLength := buffer.length * TARGET_SAMPLE_RATE / fromRate
    (List.range newLength).map (fun i => buffer.getD (i * fromRate / TARGET_SAMPLE_RATE) 0)

/-- Embedding of the emission loop of `processSamples` of
useAudioCapture, with an explicit iteration budget: while at least
`VAD_CHUNK_SIZE` samples remain, emit the first `VAD_CHUNK_SIZE`
samples as one frame and advance past them; the tail shorter than a
frame is the carry-over.  Each iteration of the source loop advances
the offset by `VAD_CHUNK_SIZE`, which is at least 1, so a budget of
one step per buffer element runs the loop to completion; the wrapper
`chunkEmit` below supplies that budget. -/
def chunkEmitF : Nat → List Int → List (List Int) × List Int
  | 0, l => ([], l)
  | fuel + 1, l =>
    if VAD_CHUNK_SIZE ≤ l.length then
      let rest := chunkEmitF fuel (l.drop VAD_CHUNK_SIZE)
      (l.take VAD_CHUNK_SIZE :: rest.1, rest.2)
    else ([], l)

/-- Emission loop of `processSamples` of useAudioCapture: the loop of
`chunkEmitF` run to completion on the combined buffer. -/
def chunkEmit (l : List Int) : List (List Int) × List Int :=
  chunkEmitF l.length l

/-! Interaction state machine of the application component.  OrbState
is the set of user-facing interaction states; RecordingState is the
local push-to-talk capture state; SessionEvent is the tagged server
event carried by structured inbound messages. -/

/-- User-facing interaction (orb) states of the App component. -/
inductive OrbState where
  | idle
  | recording
  | thinking
  | complete
deriving DecidableEq, Repr

/-- Local push-to-talk recording states of the AudioRecorder flow. -/
inductive RecordingState where
  | idle
  | recording
  | transcribing
deriving DecidableEq, Repr

/-- Structured server events handled by the App onMessage handler; the
payloads the handler actually stores are carried (transcript text,
songs and optional mood analysis, the latter two as opaque ids).  An
unrecognized tag is represented by `unknown`. -/
inductive SessionEvent where
  | loading
  | ready
  | wake_word_detected
  | listening
  | transcript (text : String)
  | songs (songs : List Nat) (mood_analysis : Option Nat)
  | response
  | interrupted
  | voice_mode_stop
  | idle_timeout
  | unknown (tag : String)
deriving DecidableEq, Repr

/-- App component state touched by the onMessage handler of the
useVoiceWebSocket options: orb state, the two voice flags, the mood
text, and the song/mood-analysis results (payloads as opaque ids). -/
structure AppState where
  orbState : OrbState
  voiceReady : Bool
  voiceMode : Bool
  moodText : String
  songs : List Nat
  moodAnalysis : Option Nat
deriving DecidableEq, Repr

/-- Embedding of the onMessage handler of the useVoiceWebSocket options
in App: one state update per recognized event tag, exactly as the
if/else chain of the source; an unrecognized tag changes nothing. -/
def onMessage (s : AppState) (e : SessionEvent) : AppState :=
  match e with
  | .loading => { s with orbState := .thinking, voiceReady := false }
  | .ready => { s with voiceReady := true, orbState := .idle }
  | .wake_word_detected => { s with orbState := .recording }
  | .listening => { s with orbState := .recording }
  | .transcript text => { s with moodText := text, orbState := .thinking }
  | .songs songs mood =>
      { s with songs := songs,
               moodAnalysis := match mood with
                 | some m => some m
                 | none => s.moodAnalysis }
  | .response => { s with orbState := .complete }
  | .interrupted => { s with orbState := .idle }
  | .voice_mode_stop => { s with voiceMode := false, orbState := .idle }
  | .idle_timeout => { s with orbState := .idle }
  | .unknown _ => s

/-- Orb states observed after each event of a sequence processed by
`onMessage`, in order. -/
def orbTrace (s : AppState) : List SessionEvent → List OrbState
  | [] => []
  | e :: es =>
    let t := onMessage s e
    t.orbState :: orbTrace t es

/-- Concrete App state in continuous voice mode whose orb state is
`thinking` (as after connecting while models load). -/
def thinkingStart : AppState :=
  { orbState := .thinking, voiceReady := false, voiceMode := true,
    moodText := "", songs := [], moodAnalysis := none }

/-- Result of one run of the orb-state derivation effect of App (click
mode): the orb state it sets, and the delayed transition it schedules,
if any, as (delay in ms, target state).  The scheduled transition is
cancelled if the effect re-runs first (cleanup clears the timer). -/
structure OrbDerivation where
  orbState : OrbState
  timer : Option (Nat × OrbState)
deriving DecidableEq, Repr

/-- Embedding of the orb-state derivation effect of App: in voice mode
the effect does nothing; otherwise the if/else cascade of the source,
where entering `complete` schedules a revert to `idle` after 1500 ms. -/
def deriveOrb (voiceMode : Bool) (recordingState : RecordingState)
    (isLoading : Bool) (moodAnalysis : Option Nat) (orbState : OrbState) : OrbDerivation :=
  if voiceMode then ⟨orbState, none⟩
  else if recordingState = .recording then ⟨.recording, none⟩
  else if recordingState = .transcribing ∨ isLoading = true then ⟨.thinking, none⟩
  else if moodAnalysis.isSome = true ∧ orbState = .thinking then ⟨.complete, some (1500, .idle)⟩
  else if orbState ≠ .complete then ⟨.idle, none⟩
  else ⟨orbState, none⟩

/-! Voice session client (useVoiceWebSocket).  A WebSocket is modelled
by its readyState; the client state records every socket ever created
(by creation order), which one the ref currently points at, the
reported connection state, and the frames transmitted so far. -/

/-- Ready states of a WebSocket object. -/
inductive ReadyState where
  | CONNECTING
  | OPEN
  | CLOSING
  | CLOSED
deriving DecidableEq, Repr

/-- Connection states reported by useVoiceWebSocket. -/
inductive ConnectionState where
  | disconnected
  | connecting
  | connected
  | error
deriving DecidableEq, Repr

/-- State of the useVoiceWebSocket hook: the ready states of all
sockets ever created (indexed by creation order), the index the
`wsRef` currently holds (none when null), the reported connection
state, and everything sent so far. -/
structure WSState where
  sockets : List ReadyState
  wsRef : Option Nat
  connectionState : ConnectionState
  sent : List (List Nat)
deriving DecidableEq, Repr

/-- Initial hook state: no socket, null ref, disconnected. -/
def initialWS : WSState :=
  { sockets := [], wsRef := none, connectionState := .disconnected, sent := [] }

/-- Guard of `connect`: the ref holds a socket whose readyState is OPEN
or CONNECTING (a null ref fails the check). -/
def wsGuard (s : WSState) : Bool :=
  match s.wsRef with
  | some i => s.sockets.getD i .CLOSED == .OPEN || s.sockets.getD i .CLOSED == .CONNECTING
  | none => false

/-- Embedding of `connect` of useVoiceWebSocket: if the ref already
holds a connecting/open socket, return immediately; otherwise report
`connecting` and construct a new socket in state CONNECTING, storing
it in the ref.  `ctorFails` selects the catch branch of the source, in
which the constructor throws: no socket is created, the ref is
unchanged and the state is reported as `error`. -/
def connect (ctorFails : Bool) (s : WSState) : WSState :=
  if wsGuard s then s
  else if ctorFails then { s with connectionState := .error }
  else
    { sockets := s.sockets ++ [.CONNECTING]
      wsRef := some s.sockets.length
      connectionState := .connecting
      sent := s.sent }

/-- Embedding of the ws.onopen handler attached to socket i: the socket
becomes OPEN and the connection state is reported as `connected`. -/
def onopen (s : WSState) (i : Nat) : WSState :=
  { s with sockets := s.sockets.set i .OPEN, connectionState := .connected }

/-- Check of `sendAudio`: the ref holds a socket whose readyState is
OPEN (a null ref fails the check). -/
def wsIsOpen (s : WSState) : Bool :=
  match s.wsRef with
  | some i => s.sockets.getD i .CLOSED == .OPEN
  | none => false

/-- Embedding of `sendAudio` of useVoiceWebSocket: send the frame only
when the ref holds an OPEN socket, otherwise do nothing (no state
change, no queueing). -/
def sendAudio (s : WSState) (audioData : List Nat) : WSState :=
  if wsIsOpen s then { s with sent := s.sent ++ [audioData] } else s

/-- Embedding of the onAudioChunk callback of the useAudioCapture
options in App: forward the chunk to `sendAudio` only while the hook
reports `isConnected`. -/
def onAudioChunk (isConnected : Bool) (s : WSState) (chunk : List Nat) : WSState :=
  if isConnected then sendAudio s chunk else s

/-- Steps of the claim scope for the single-connection invariant: a
sequence of `connect()` calls (each either succeeding or throwing in
the constructor), interleaved with open resolutions of pending
sockets. -/
inductive ConnStep : WSState → WSState → Prop where
  | callConnect (s : WSState) : ConnStep s (connect false s)
  | callConnectFail (s : WSState) : ConnStep s (connect true s)
  | openEvent (s : WSState) (i : Nat) :
      s.sockets.getD i .CLOSED = .CONNECTING → ConnStep s (onopen s i)

/-- Client states reachable from the initial state by `ConnStep`s. -/
inductive ConnReach : WSState → Prop where
  | init : ConnReach initialWS
  | step {s t : WSState} : ConnReach s → ConnStep s t → ConnReach t

/-- Number of underlying connections currently open or being opened. -/
def liveCount (s : WSState) : Nat :=
  (s.sockets.filter (fun r => r == .CONNECTING || r == .OPEN)).length

/-- Invariant of the connect/open system: either the ref is null, no
socket was ever created and the state is disconnected or error, or the
ref holds the unique socket, which is CONNECTING or OPEN. -/
def ConnInv (s : WSState) : Prop :=
  (s.wsRef = none ∧ s.sockets = [] ∧
    (s.connectionState = .disconnected ∨ s.connectionState = .error)) ∨
  (s.wsRef = some 0 ∧ ∃ r, s.sockets = [r] ∧ (r = .CONNECTING ∨ r = .OPEN))

/-! Inbound dispatch (ws.onmessage of useVoiceWebSocket). -/

/-- Payload of one inbound message: binary (synthesized speech audio)
or text (a JSON-encoded event). -/
inductive MessageData where
  | blob (audio : List Nat)
  | text (payload : String)
deriving DecidableEq, Repr

/-- Observable outcome of dispatching one inbound message: the payloads
delivered to the audio callback, the events delivered to the event
callback, the strings submitted to JSON parsing, and whether the
handler closed the connection or changed the reported state. -/
structure DispatchResult where
  audioCalls : List (List Nat)
  eventCalls : List SessionEvent
  parseAttempts : List String
  closedConnection : Bool
  stateChange : Option ConnectionState
deriving DecidableEq, Repr

/-- Embedding of the ws.onmessage handler of useVoiceWebSocket,
parameterized by the JSON parser: a binary payload is delivered to the
audio callback with no parse attempt; a text payload is parsed, a
successful parse is delivered to the event callback as one event, and
a parse failure only logs (nothing is delivered, the connection is not
touched). -/
def onmessage (parseJson : String → Option SessionEvent) : MessageData → DispatchResult
  | .blob audio =>
      { audioCalls := [audio], eventCalls := [], parseAttempts := [],
        closedConnection := false, stateChange := none }
  | .text payload =>
      { audioCalls := []
        eventCalls :=
          match parseJson payload with
          | some e => [e]
          | none => []
        parseAttempts := [payload]
        closedConnection := false
        stateChange := none }

/-! Capture session lifecycle (useAudioCapture). -/

/-- State of the useAudioCapture hook: whether each ref currently holds
a live resource (source node, worklet node, audio context, media
stream), the two flags, and the sample accumulator contents. -/
structure CaptureState where
  sourceRef : Bool
  workletNodeRef : Bool
  audioContextRef : Bool
  streamRef : Bool
  isCapturing : Bool
  isReady : Bool
  sampleAccumulator : List Int
deriving DecidableEq, Repr

/-- Embedding of `stopCapture` of useAudioCapture: disconnect and null
the source and worklet refs, close and null the audio context, stop
the stream tracks and null the stream ref, clear both flags.  The
sample accumulator is not touched by the source. -/
def stopCapture (s : CaptureState) : CaptureState :=
  { s with sourceRef := false, workletNodeRef := false,
           audioContextRef := false, streamRef := false,
           isCapturing := false, isReady := false }

/-- Embedding of the success path of `startCapture` of useAudioCapture:
a no-op while already capturing; otherwise the accumulator is reset to
empty, all resources are acquired and both flags are set. -/
def startCapture (s : CaptureState) : CaptureState :=
  if s.isCapturing then s
  else
    { sourceRef := true, workletNodeRef := true, audioContextRef := true,
      streamRef := true, isCapturing := true, isReady := true,
      sampleAccumulator := [] }

/-- Concrete mid-capture state whose accumulator holds one leftover
sample. -/
def activeCapture : CaptureState :=
  { sourceRef := true, workletNodeRef := true, audioContextRef := true,
    streamRef := true, isCapturing := true, isReady := true,
    sampleAccumulator := [7] }

/-- Concrete stopped capture state with a stale accumulator sample. -/
def stoppedCapture : CaptureState :=
  { sourceRef := false, workletNodeRef := false, audioContextRef := false,
    streamRef := false, isCapturing := false, isReady := false,
    sampleAccumulator := [3] }

/-! Binary64 model for the resampler.  The source computes
`ratio = fromRate / TARGET_SAMPLE_RATE`, `Math.floor(length / ratio)`
and `Math.floor(i * ratio)` in IEEE-754 binary64 arithmetic, whose
division and multiplication return the representable value nearest to
the exact result (ties to even).  Every value arising here lies well
inside the normal range (magnitudes between 2^-14 and 2^66), so
binary64 behaves as round-to-nearest-even with a 53-bit significand
and an unbounded exponent; that is what is modelled below, with all
computation in executable natural-number arithmetic (a double is a
mantissa–exponent pair) and rational numbers used only in proofs. -/

/-- Floor of log2 on positive naturals, by structural recursion on a
step budget: each step halves the argument, so a budget of n steps
runs to completion.  lg2 0 = 0 by convention (never used). -/
def lg2F : Nat → Nat → Nat
  | 0, _ => 0
  | fuel + 1, n => if n ≤ 1 then 0 else lg2F fuel (n / 2) + 1

/-- Floor of log2 of a positive natural. -/
def lg2 (n : Nat) : Nat := lg2F n n

/-- Floor of log2 of the positive rational a/b: the unique L with
2^L ≤ a/b < 2^(L+1), computed from the integer logs of a and b with a
one-step correction. -/
def ratLog2 (a b : Nat) : Int :=
  let d : Int := (lg2 a : Int) - (lg2 b : Int)
  if 0 ≤ d then (if b * 2 ^ d.toNat ≤ a then d else d - 1)
  else (if b ≤ a * 2 ^ (-d).toNat then d else d - 1)

/-- Round the nonnegative rational a/b to the nearest binary64 value,
ties to even, returned as a mantissa–exponent pair (m, e) denoting
m·2^e with 2^52 ≤ m ≤ 2^53 (for positive input).  This is the result
of an IEEE binary64 division a/b of exactly representable operands.
A zero numerator gives (0, 0); a zero denominator is never used by
the theorems (JS would produce Infinity there). -/
def roundRat (a b : Nat) : Nat × Int :=
  if a = 0 ∨ b = 0 then (0, 0)
  else
    let e : Int := ratLog2 a b - 52
    let num := if 0 ≤ e then a else a * 2 ^ (-e).toNat
    let den := if 0 ≤ e then b * 2 ^ e.toNat else b
    let m0 := num / den
    let r := num % den
    let m := if den < 2 * r ∨ (2 * r = den ∧ m0 % 2 = 1) then m0 + 1 else m0
    (m, e)

/-- Rational value denoted by a mantissa–exponent pair. -/
def dyadQ (p : Nat × Int) : ℚ := (p.1 : ℚ) * 2 ^ p.2

/-- Math.floor of the nonnegative double represented by p (exact on
doubles). -/
def floorD (p : Nat × Int) : Nat :=
  if 0 ≤ p.2 then p.1 * 2 ^ p.2.toNat else p.1 / 2 ^ (-p.2).toNat

/-- Exact rational n / (value of p), as a numerator–denominator pair
(p is a double with positive mantissa). -/
def divByDyad (n : Nat) (p : Nat × Int) : Nat × Nat :=
  if 0 ≤ p.2 then (n, p.1 * 2 ^ p.2.toNat) else (n * 2 ^ (-p.2).toNat, p.1)

/-- Exact rational n · (value of p), as a numerator–denominator pair. -/
def mulByDyad (n : Nat) (p : Nat × Int) : Nat × Nat :=
  if 0 ≤ p.2 then (n * p.1 * 2 ^ p.2.toNat, 1) else (n * p.1, 2 ^ (-p.2).toNat)

/-- Math.floor(n / r) where r is the double ratio and the division is
binary64: correctly rounded division of the exact quotient, then an
exact floor. -/
def floorDivD (n : Nat) (ratio : Nat × Int) : Nat :=
  floorD (roundRat (divByDyad n ratio).1 (divByDyad n ratio).2)

/-- Math.floor(n * r) where r is the double ratio and the product is
binary64: correctly rounded multiplication of the exact product, then
an exact floor. -/
def floorMulD (n : Nat) (ratio : Nat × Int) : Nat :=
  floorD (roundRat (mulByDyad n ratio).1 (mulByDyad n ratio).2)

/-- Embedding of the `downsample` function of useAudioCapture with the
source arithmetic: if the source rate equals the target rate the
buffer is passed through unchanged; otherwise
`ratio = fromRate / TARGET_SAMPLE_RATE` is the binary64 quotient, the
output length is `Math.floor(buffer.length / ratio)` (binary64
division) and output sample i is the input sample at index
`Math.floor(i * ratio)` (binary64 product).  Out-of-range reads yield
0, matching Int16Array semantics. -/
def downsampleJS (buffer : List Int) (fromRate : Nat) : List Int :=
  if fromRate = TARGET_SAMPLE_RATE then buffer
  else
    let ratio := roundRat fromRate TARGET_SAMPLE_RATE
    let newLength := floorDivD buffer.length ratio
    (List.range newLength).map (fun i => buffer.getD (floorMulD i ratio) 0)

lemma vad_chunk_size_pos : 0 < VAD_CHUNK_SIZE := by decide

lemma chunkEmitF_join (fuel : Nat) (l : List Int) (h : l.length ≤ fuel) :
    (chunkEmitF fuel l).1.flatten ++ (chunkEmitF fuel l).2 = l := by
  induction fuel generalizing l with
  | zero => simp [chunkEmitF]
  | succ fuel ih =>
    rw [chunkEmitF]
    by_cases hc : VAD_CHUNK_SIZE ≤ l.length
    · have hdrop : (l.drop VAD_CHUNK_SIZE).length ≤ fuel := by
        have h512 : 0 < VAD_CHUNK_SIZE := vad_chunk_size_pos
        simp only [List.length_drop]
        omega
      simp only [if_pos hc, List.flatten_cons, List.append_assoc]
      rw [ih _ hdrop]
      exact List.take_append_drop _ l
    · simp [if_neg hc]

lemma chunkEmitF_frame_length (fuel : Nat) (l : List Int) :
    ∀ c ∈ (chunkEmitF fuel l).1, c.length = VAD_CHUNK_SIZE := by
  induction fuel generalizing l with
  | zero => simp [chunkEmitF]
  | succ fuel ih =>
    rw [chunkEmitF]
    by_cases hc : VAD_CHUNK_SIZE ≤ l.length
    · simp only [if_pos hc, List.mem_cons]
      intro c hcm
      rcases hcm with hcm | hcm
      · subst hcm
        rw [List.length_take]
        exact Nat.min_eq_left hc
      · exact ih _ c hcm
    · simp [if_neg hc]

lemma chunkEmitF_count (fuel : Nat) (l : List Int) (h : l.length ≤ fuel) :
    (chunkEmitF fuel l).1.length = l.length / VAD_CHUNK_SIZE := by
  induction fuel generalizing l with
  | zero =>
    have hl : l.length = 0 := Nat.le_zero.mp h
    simp [chunkEmitF, hl]
  | succ fuel ih =>
    rw [chunkEmitF]
    by_cases hc : VAD_CHUNK_SIZE ≤ l.length
    · have hdrop : (l.drop VAD_CHUNK_SIZE).length ≤ fuel := by
        have h512 : 0 < VAD_CHUNK_SIZE := vad_chunk_size_pos
        simp only [List.length_drop]
        omega
      simp only [if_pos hc, List.length_cons]
      rw [ih _ hdrop]
      simp only [List.length_drop]
      rw [Nat.div_eq_sub_div vad_chunk_size_pos hc]
    · simp only [if_neg hc, List.length_nil]
      exact (Nat.div_eq_of_lt (Nat.lt_of_not_le hc)).symm

lemma chunkEmitF_rest_length (fuel : Nat) (l : List Int) (h : l.length ≤ fuel) :
    (chunkEmitF fuel l).2.length = l.length % VAD_CHUNK_SIZE := by
  induction fuel generalizing l with
  | zero =>
    have hl : l.length = 0 := Nat.le_zero.mp h
    simp [chunkEmitF, hl]
  | succ fuel ih =>
    rw [chunkEmitF]
    by_cases hc : VAD_CHUNK_SIZE ≤ l.length
    · have hdrop : (l.drop VAD_CHUNK_SIZE).length ≤ fuel := by
        have h512 : 0 < VAD_CHUNK_SIZE := vad_chunk_size_pos
        simp only [List.length_drop]
        omega
      simp only [if_pos hc]
      rw [ih _ hdrop]
      simp only [List.length_drop]
      rw [Nat.mod_eq_sub_mod hc]
    · simp only [if_neg hc]
      exact (Nat.mod_eq_of_lt (Nat.lt_of_not_le hc)).symm

lemma chunkEmit_join (l : List Int) :
    (chunkEmit l).1.flatten ++ (chunkEmit l).2 = l :=
  chunkEmitF_join l.length l (Nat.le_refl _)

lemma chunkEmit_frame_length (l : List Int) :
    ∀ c ∈ (chunkEmit l).1, c.length = VAD_CHUNK_SIZE :=
  chunkEmitF_frame_length l.length l

lemma chunkEmit_count (l : List Int) :
    (chunkEmit l).1.length = l.length / VAD_CHUNK_SIZE :=
  chunkEmitF_count l.length l (Nat.le_refl _)

lemma chunkEmit_rest_length (l : List Int) :
    (chunkEmit l).2.length = l.length % VAD_CHUNK_SIZE :=
  chunkEmitF_rest_length l.length l (Nat.le_refl _)

/-- Embedding of `processSamples` of useAudioCapture: append the new
samples to the accumulator, emit complete `VAD_CHUNK_SIZE` frames and
keep the remainder.  Returns the emitted frames in order and the new
accumulator contents. -/
def processSamples (acc : List Int) (samples : List Int) : List (List Int) × List Int :=
  chunkEmit (acc ++ samples)

/-- Repeated calls of `processSamples`, one per input batch, threading
the carry-over accumulator through.  Returns all frames emitted over
the whole run, in emission order, and the final accumulator. -/
def processBatches : List Int → List (List Int) → List (List Int) × List Int
  | acc, [] => ([], acc)
  | acc, b :: bs =>
    let p := processSamples acc b
    let r := processBatches p.2 bs
    (p.1 ++ r.1, r.2)

lemma processBatches_join (acc : List Int) (bs : List (List Int)) :
    (processBatches acc bs).1.flatten ++ (processBatches acc bs).2 = acc ++ bs.flatten := by
  induction bs generalizing acc with
  | nil => simp [processBatches]
  | cons b bs ih =>
    simp only [processBatches, processSamples, List.flatten_cons, List.flatten_append,
      List.append_assoc]
    rw [ih, ← List.append_assoc, chunkEmit_join (acc ++ b), List.append_assoc]

lemma processBatches_frame_length (acc : List Int) (bs : List (List Int)) :
    ∀ c ∈ (processBatches acc bs).1, c.length = VAD_CHUNK_SIZE := by
  induction bs generalizing acc with
  | nil => simp [processBatches]
  | cons b bs ih =>
    simp only [processBatches, List.mem_append]
    intro c hc
    rcases hc with hc | hc
    · exact chunkEmit_frame_length _ c hc
    · exact ih _ c hc

lemma processBatches_counts (acc : List Int) (bs : List (List Int))
    (hacc : acc.length < VAD_CHUNK_SIZE) :
    (processBatches acc bs).1.length = (acc.length + bs.flatten.length) / VAD_CHUNK_SIZE ∧
    (processBatches acc bs).2.length = (acc.length + bs.flatten.length) % VAD_CHUNK_SIZE := by
  induction bs generalizing acc with
  | nil =>
    simp only [processBatches, List.flatten_nil, List.length_nil, Nat.add_zero]
    exact ⟨(Nat.div_eq_of_lt hacc).symm, (Nat.mod_eq_of_lt hacc).symm⟩
  | cons b bs ih =>
    have hrest : (processSamples acc b).2.length = (acc.length + b.length) % VAD_CHUNK_SIZE := by
      rw [processSamples, chunkEmit_rest_length, List.length_append]
    have hrest_lt : (processSamples acc b).2.length < VAD_CHUNK_SIZE := by
      rw [hrest]; exact Nat.mod_lt _ (by decide)
    obtain ⟨ih1, ih2⟩ := ih (processSamples acc b).2 hrest_lt
    have hcount : (processSamples acc b).1.length = (acc.length + b.length) / VAD_CHUNK_SIZE := by
      rw [processSamples, chunkEmit_count, List.length_append]
    have hdm := Nat.div_add_mod (acc.length + b.length) VAD_CHUNK_SIZE
    have hsplit : acc.length + (b :: bs).flatten.length =
        VAD_CHUNK_SIZE * ((acc.length + b.length) / VAD_CHUNK_SIZE) +
          ((acc.length + b.length) % VAD_CHUNK_SIZE + bs.flatten.length) := by
      simp only [List.flatten_cons, List.length_append]
      omega
    constructor
    · simp only [processBatches, List.length_append]
      rw [hcount, ih1, hrest, hsplit, Nat.mul_add_div (by decide : 0 < VAD_CHUNK_SIZE)]
    · simp only [processBatches]
      rw [ih2, hrest, hsplit, Nat.mul_add_mod]


lemma downsample_length (buffer : List Int) (Rs : Nat) :
    (downsample buffer Rs).length = buffer.length * TARGET_SAMPLE_RATE / Rs := by
  rw [downsample]
  by_cases hr : Rs = TARGET_SAMPLE_RATE
  · rw [if_pos hr, hr]
    exact (Nat.mul_div_cancel _ (by decide : 0 < TARGET_SAMPLE_RATE)).symm
  · rw [if_neg hr]
    simp

lemma downsample_index (buffer : List Int) (Rs : Nat) (hRs : 0 < Rs)
    (i : Nat) (hi : i < (downsample buffer Rs).length) :
    i * Rs / TARGET_SAMPLE_RATE < buffer.length ∧
    (downsample buffer Rs).getD i 0 = buffer.getD (i * Rs / TARGET_SAMPLE_RATE) 0 := by
  have hT : 0 < TARGET_SAMPLE_RATE := by decide
  have hlen := downsample_length buffer Rs
  have hbound : i * Rs / TARGET_SAMPLE_RATE < buffer.length := by
    rw [hlen] at hi
    have h1 : i + 1 ≤ buffer.length * TARGET_SAMPLE_RATE / Rs := hi
    have h2 : (i + 1) * Rs ≤ buffer.length * TARGET_SAMPLE_RATE :=
      (Nat.le_div_iff_mul_le hRs).mp h1
    have h3 : (i + 1) * Rs = i * Rs + Rs := Nat.succ_mul i Rs
    have h4 : i * Rs < buffer.length * TARGET_SAMPLE_RATE := by omega
    exact (Nat.div_lt_iff_lt_mul hT).mpr h4
  refine ⟨hbound, ?_⟩
  rw [downsample] at hi ⊢
  by_cases hr : Rs = TARGET_SAMPLE_RATE
  · rw [if_pos hr] at hi ⊢
    subst hr
    rw [Nat.mul_div_cancel _ hT]
  · rw [if_neg hr] at hi ⊢
    simp only [List.length_map, List.length_range] at hi
    simp [List.getD_eq_getElem?_getD, List.getElem?_map, List.getElem?_range hi]

/-- Emptiness characterization of the exact-arithmetic reference
function: for Rs ≥ 16000 its output is empty iff N·16000 < Rs. -/
lemma downsample_exact_empty_iff (buffer : List Int) (Rs : Nat)
    (h : TARGET_SAMPLE_RATE ≤ Rs) :
    (downsample buffer Rs = [] ↔ buffer.length * TARGET_SAMPLE_RATE < Rs) := by
  have hRs : 0 < Rs := lt_of_lt_of_le (by decide) h
  rw [downsample]
  by_cases hr : Rs = TARGET_SAMPLE_RATE
  · rw [if_pos hr, hr]
    constructor
    · intro he
      rw [he]
      simp only [List.length_nil, Nat.zero_mul]
      decide
    · intro hlt
      have hT : TARGET_SAMPLE_RATE = 16000 := rfl
      rw [hT] at hlt
      have : buffer.length = 0 := by omega
      exact List.length_eq_zero.mp this
  · rw [if_neg hr]
    rw [List.map_eq_nil_iff, List.range_eq_nil]
    rw [Nat.div_eq_zero_iff hRs]

/-- C1: Frame Accumulator batch-split invariance: processing any finite
sequence of batches from an empty carry-over emits exactly ⌊K/512⌋
frames and retains exactly K mod 512 samples, where K is the total
sample count, and these counts agree for every splitting of the same
K samples into batches. -/
theorem accumulator_batch_split_invariance (bs : List (List Int)) :
    (processBatches [] bs).1.length = bs.flatten.length / VAD_CHUNK_SIZE ∧
    (processBatches [] bs).2.length = bs.flatten.length % VAD_CHUNK_SIZE ∧
    ∀ bs2 : List (List Int), bs2.flatten.length = bs.flatten.length →
      (processBatches [] bs2).1.length = (processBatches [] bs).1.length ∧
      (processBatches [] bs2).2.length = (processBatches [] bs).2.length := by
  have h0 : ([] : List Int).length < VAD_CHUNK_SIZE := by decide
  obtain ⟨h1, h2⟩ := processBatches_counts [] bs h0
  simp only [List.length_nil, Nat.zero_add] at h1 h2
  refine ⟨h1, h2, ?_⟩
  intro bs2 hlen
  obtain ⟨h3, h4⟩ := processBatches_counts [] bs2 h0
  simp only [List.length_nil, Nat.zero_add] at h3 h4
  rw [h1, h2, h3, h4, hlen]
  exact ⟨rfl, rfl⟩

/-- Witness for C1 at concrete inputs: the split [[1,2],[3]] and the
split [[1,2,3]] of the same 3 samples emit the same number of frames. -/
theorem accumulator_batch_split_invariance_witness :
    ([[(1 : Int), 2, 3]] : List (List Int)).flatten.length =
      ([[(1 : Int), 2], [3]] : List (List Int)).flatten.length ∧
    (processBatches [] [[(1 : Int), 2, 3]]).1.length =
      (processBatches [] [[(1 : Int), 2], [3]]).1.length := by
  refine ⟨by decide, ?_⟩
  exact ((accumulator_batch_split_invariance [[(1 : Int), 2], [3]]).2.2
    [[(1 : Int), 2, 3]] (by decide)).1

/-- C2: Frame Accumulator losslessness and order preservation: starting
from an empty carry-over, every emitted frame has length exactly 512,
and the concatenation of all emitted frames followed by the final
carry-over reproduces the concatenation of all input batches. -/
theorem accumulator_lossless_order_preserving (bs : List (List Int)) :
    (∀ c ∈ (processBatches [] bs).1, c.length = VAD_CHUNK_SIZE) ∧
    (processBatches [] bs).1.flatten ++ (processBatches [] bs).2 = bs.flatten := by
  constructor
  · exact processBatches_frame_length [] bs
  · have h := processBatches_join [] bs
    simpa using h

set_option maxRecDepth 40000 in
/-- Witness for C2 at a concrete input: one 520-sample batch emits the
frame of its first 512 samples (which has length 512) and the flatten
equation holds for it. -/
theorem accumulator_lossless_order_preserving_witness :
    (List.replicate VAD_CHUNK_SIZE (1 : Int)).length = VAD_CHUNK_SIZE ∧
    (processBatches [] [List.replicate 520 (1 : Int)]).1.flatten ++
      (processBatches [] [List.replicate 520 (1 : Int)]).2 =
      ([List.replicate 520 (1 : Int)] : List (List Int)).flatten := by
  constructor
  · exact (accumulator_lossless_order_preserving [List.replicate 520 (1 : Int)]).1
      (List.replicate VAD_CHUNK_SIZE (1 : Int)) (by decide)
  · exact (accumulator_lossless_order_preserving [List.replicate 520 (1 : Int)]).2


lemma connInv_sockets_le {s : WSState} (h : ConnInv s) : s.sockets.length ≤ 1 := by
  rcases h with ⟨_, h2, _⟩ | ⟨_, r, h2, _⟩ <;> rw [h2] <;> simp

lemma connInv_guard {s : WSState} (h : ConnInv s)
    (hcs : s.connectionState = .connecting ∨ s.connectionState = .connected) :
    wsGuard s = true := by
  rcases h with ⟨_, _, h3⟩ | ⟨h1, r, h2, h3⟩
  · rcases h3 with h3 | h3 <;> rcases hcs with hcs | hcs <;> rw [h3] at hcs <;> cases hcs
  · rw [wsGuard, h1, h2]
    rcases h3 with h3 | h3 <;> rw [h3] <;> rfl

lemma wsGuard_of_none {s : WSState} (h : s.wsRef = none) : wsGuard s = false := by
  simp [wsGuard, h]

lemma wsGuard_of_single {s : WSState} {r : ReadyState} (h1 : s.wsRef = some 0)
    (h2 : s.sockets = [r]) (h3 : r = .CONNECTING ∨ r = .OPEN) : wsGuard s = true := by
  simp only [wsGuard, h1, h2]
  rcases h3 with h3 | h3 <;> rw [h3] <;> rfl

lemma connStep_inv {s t : WSState} (h : ConnInv s) (hs : ConnStep s t) : ConnInv t := by
  cases hs with
  | callConnect =>
    rcases h with ⟨h1, h2, h3⟩ | ⟨h1, r, h2, h3⟩
    · rw [connect, if_neg (by simp [wsGuard_of_none h1]), if_neg (by simp)]
      right
      refine ⟨by simp [h2], .CONNECTING, by simp [h2], Or.inl rfl⟩
    · rw [connect, if_pos (wsGuard_of_single h1 h2 h3)]
      exact Or.inr ⟨h1, r, h2, h3⟩
  | callConnectFail =>
    rcases h with ⟨h1, h2, h3⟩ | ⟨h1, r, h2, h3⟩
    · rw [connect, if_neg (by simp [wsGuard_of_none h1]), if_pos rfl]
      exact Or.inl ⟨h1, h2, Or.inr rfl⟩
    · rw [connect, if_pos (wsGuard_of_single h1 h2 h3)]
      exact Or.inr ⟨h1, r, h2, h3⟩
  | openEvent i hp =>
    rcases h with ⟨h1, h2, h3⟩ | ⟨h1, r, h2, h3⟩
    · rw [h2] at hp
      cases i <;> simp [List.getD] at hp
    · rw [h2] at hp
      cases i with
      | zero =>
        right
        refine ⟨h1, .OPEN, ?_, Or.inr rfl⟩
        show s.sockets.set 0 .OPEN = [.OPEN]
        rw [h2]
        rfl
      | succ j => simp [List.getD] at hp

lemma connReach_inv {s : WSState} (h : ConnReach s) : ConnInv s := by
  induction h with
  | init => exact Or.inl ⟨rfl, rfl, Or.inl rfl⟩
  | step _ hs ih => exact connStep_inv ih hs

/-- C5: Voice Session Client single-connection invariant: in every
reachable client state whose reported state is `connecting` or
`connected`, a `connect()` call (whether the constructor would succeed
or throw) is a no-op and creates no socket; and along every sequence
of `connect()` calls and open resolutions, at most one underlying
connection is open or being opened at any point, including immediately
after a further `connect()` call. -/
theorem connect_single_connection (s : WSState) (h : ConnReach s) :
    ((s.connectionState = .connecting ∨ s.connectionState = .connected) →
      ∀ ctorFails : Bool, connect ctorFails s = s) ∧
    liveCount s ≤ 1 ∧
    ∀ ctorFails : Bool, liveCount (connect ctorFails s) ≤ 1 := by
  have hinv := connReach_inv h
  refine ⟨?_, ?_, ?_⟩
  · intro hcs b
    rw [connect, connInv_guard hinv hcs, if_pos rfl]
  · exact le_trans (List.length_filter_le _ _) (connInv_sockets_le hinv)
  · intro b
    have hr : ConnReach (connect b s) := by
      cases b
      · exact ConnReach.step h (ConnStep.callConnect s)
      · exact ConnReach.step h (ConnStep.callConnectFail s)
    exact le_trans (List.length_filter_le _ _) (connInv_sockets_le (connReach_inv hr))

/-- Witness for C5 at a concrete reachable state: after two `connect()`
calls in a row from the initial state (the first not yet resolved), at
most one underlying connection exists. -/
theorem connect_single_connection_witness :
    liveCount (connect false (connect false initialWS)) ≤ 1 :=
  (connect_single_connection (connect false (connect false initialWS))
    (ConnReach.step (ConnReach.step ConnReach.init (ConnStep.callConnect initialWS))
      (ConnStep.callConnect (connect false initialWS)))).2.1

/-- C6: Voice Session Client inbound dispatch: a binary payload is
delivered to the audio callback and is never submitted to structured
parsing; a text payload that parses is delivered to the event callback
as exactly one event; a text payload that fails to parse is dropped
(no event delivered) with no connection-state change and without
closing the connection. -/
theorem onmessage_dispatch (parseJson : String → Option SessionEvent) :
    (∀ audio : List Nat,
      onmessage parseJson (.blob audio) =
        { audioCalls := [audio], eventCalls := [], parseAttempts := [],
          closedConnection := false, stateChange := none }) ∧
    (∀ payload e, parseJson payload = some e →
      (onmessage parseJson (.text payload)).eventCalls = [e] ∧
      (onmessage parseJson (.text payload)).audioCalls = []) ∧
    (∀ payload, parseJson payload = none →
      (onmessage parseJson (.text payload)).eventCalls = [] ∧
      (onmessage parseJson (.text payload)).closedConnection = false ∧
      (onmessage parseJson (.text payload)).stateChange = none) := by
  refine ⟨fun audio => rfl, ?_, ?_⟩
  · intro payload e hp
    constructor
    · simp [onmessage, hp]
    · rfl
  · intro payload hp
    refine ⟨?_, rfl, rfl⟩
    simp [onmessage, hp]

/-- Witness for C6 at a concrete parser and concrete messages: a parser
that recognizes only the string ok, applied to a binary payload, a
parsable text and an unparsable text. -/
theorem onmessage_dispatch_witness :
    (onmessage (fun t => if t = "ok" then some .response else none) (.blob [1, 2]) =
      { audioCalls := [[1, 2]], eventCalls := [], parseAttempts := [],
        closedConnection := false, stateChange := none }) ∧
    (onmessage (fun t => if t = "ok" then some .response else none)
      (.text "ok")).eventCalls = [.response] ∧
    (onmessage (fun t => if t = "ok" then some .response else none)
      (.text "bad")).closedConnection = false := by
  refine ⟨?_, ?_, ?_⟩
  · exact (onmessage_dispatch (fun t => if t = "ok" then some .response else none)).1 [1, 2]
  · exact ((onmessage_dispatch (fun t => if t = "ok" then some .response else none)).2.1
      "ok" .response (by decide)).1
  · exact ((onmessage_dispatch (fun t => if t = "ok" then some .response else none)).2.2
      "bad" (by decide)).2.1

/-- C7: send-while-disconnected is a silent drop: whenever the ref does
not hold an OPEN socket (in particular whenever the ref is null, the
disconnected state), `sendAudio` returns the state unchanged — nothing
is transmitted and nothing is queued — and the App-level onAudioChunk
callback likewise forwards nothing when the hook does not report
`isConnected`. -/
theorem sendAudio_disconnected_drop (s : WSState) (frame : List Nat)
    (h : wsIsOpen s = false) :
    sendAudio s frame = s ∧
    (∀ isConnected : Bool, onAudioChunk isConnected s frame = s) ∧
    (s.wsRef = none → wsIsOpen s = false) := by
  refine ⟨?_, ?_, fun _ => h⟩
  · rw [sendAudio, h]
    rfl
  · intro c
    cases c
    · rfl
    · rw [onAudioChunk, if_pos rfl, sendAudio, h]
      rfl

/-- Witness for C7 at the concrete initial (disconnected) state: a
frame sent there changes nothing. -/
theorem sendAudio_disconnected_drop_witness :
    wsIsOpen initialWS = false ∧ sendAudio initialWS [9] = initialWS :=
  ⟨rfl, (sendAudio_disconnected_drop initialWS [9] rfl).1⟩

/-- Counterexample for C4 as stated: from the `thinking` state in
continuous voice mode, the event sequence loading, ready,
wake_word_detected, transcript, response yields the state sequence
thinking, idle, recording, thinking, complete — not thinking,
thinking, recording, thinking, complete — because the `ready` handler
sets the orb state to `idle`, not only the readiness flag. -/
theorem continuous_mode_ready_counterexample :
    orbTrace thinkingStart
        [.loading, .ready, .wake_word_detected, .transcript "hello", .response] ≠
      [.thinking, .thinking, .recording, .thinking, .complete] ∧
    orbTrace thinkingStart
        [.loading, .ready, .wake_word_detected, .transcript "hello", .response] =
      [.thinking, .idle, .recording, .thinking, .complete] ∧
    thinkingStart.orbState = .thinking ∧
    (onMessage thinkingStart .ready).orbState = .idle := by
  refine ⟨by decide, by decide, rfl, rfl⟩

/-- C4 (amended): from the `thinking` state, the event sequence
loading, ready, wake_word_detected, transcript, response yields the
state sequence thinking, idle, recording, thinking, complete: the
`ready` event both flips the readiness flag and sets the state to
`idle` (waiting for the wake word); accordingly, among server events,
`idle` is entered exactly via `ready`, `interrupted`, `idle_timeout`
or `voice_mode_stop` (the post-`complete` timer belongs to click
mode). -/
theorem continuous_mode_trace_amended (s : AppState) (t : String)
    (h : s.orbState = .thinking) :
    orbTrace s [.loading, .ready, .wake_word_detected, .transcript t, .response] =
      [.thinking, .idle, .recording, .thinking, .complete] ∧
    (onMessage s .ready).orbState = .idle ∧
    (onMessage s .ready).voiceReady = true ∧
    (∀ u : AppState, ∀ e : SessionEvent, u.orbState ≠ .idle →
      (onMessage u e).orbState = .idle →
      (e = .ready ∨ e = .interrupted ∨ e = .voice_mode_stop ∨ e = .idle_timeout)) := by
  refine ⟨by simp [orbTrace, onMessage], rfl, rfl, ?_⟩
  intro u e h1 h2
  cases e <;> simp_all [onMessage]

/-- Witness for C4 (amended) at the concrete `thinking` start state. -/
theorem continuous_mode_trace_amended_witness :
    thinkingStart.orbState = .thinking ∧
    orbTrace thinkingStart
        [.loading, .ready, .wake_word_detected, .transcript "hi", .response] =
      [.thinking, .idle, .recording, .thinking, .complete] :=
  ⟨rfl, (continuous_mode_trace_amended thinkingStart "hi" rfl).1⟩

/-- C9: push-to-talk derivation: with continuous voice mode inactive,
the derivation effect sets `recording` while the local recording state
is `recording`, `thinking` while it is `transcribing`, and, when a
mood-analysis result is present while the previous derived state was
`thinking` (and no recording/transcription/loading is in progress),
sets `complete` and schedules the revert to `idle` after exactly
1500 ms — a schedule that is cancelled only if the effect re-runs
(a new input supersedes it) first. -/
theorem click_mode_derivation (recordingState : RecordingState) (isLoading : Bool)
    (moodAnalysis : Option Nat) (orbState : OrbState) :
    (recordingState = .recording →
      deriveOrb false recordingState isLoading moodAnalysis orbState =
        ⟨.recording, none⟩) ∧
    (recordingState = .transcribing →
      deriveOrb false recordingState isLoading moodAnalysis orbState =
        ⟨.thinking, none⟩) ∧
    (recordingState = .idle → isLoading = false → moodAnalysis.isSome = true →
      orbState = .thinking →
      deriveOrb false recordingState isLoading moodAnalysis orbState =
        ⟨.complete, some (1500, .idle)⟩) := by
  refine ⟨?_, ?_, ?_⟩
  · intro h
    subst h
    simp [deriveOrb]
  · intro h
    subst h
    simp [deriveOrb]
  · intro h1 h2 h3 h4
    subst h1; subst h2; subst h4
    simp [deriveOrb, h3]

/-- Witness for C9 at concrete inputs: a result arriving while the orb
was `thinking`, with recording idle and loading finished, enters
`complete` with the 1500 ms revert scheduled. -/
theorem click_mode_derivation_witness :
    deriveOrb false .idle false (some 1) .thinking = ⟨.complete, some (1500, .idle)⟩ :=
  (click_mode_derivation .idle false (some 1) .thinking).2.2 rfl rfl rfl rfl

/-- Counterexample for C10 as stated: stopping an active capture whose
accumulator holds a leftover sample leaves that sample in the
accumulator — `stopCapture` does not clear the carry-over buffer. -/
theorem stopCapture_clears_buffer_counterexample :
    (stopCapture activeCapture).sampleAccumulator ≠ [] ∧
    (stopCapture activeCapture).sampleAccumulator = [7] := by
  refine ⟨by decide, rfl⟩

/-- C10 (amended): `stopCapture` releases the processing path (source
and worklet disconnected and nulled), closes the audio context,
releases the device stream and clears both flags, from any state; it
is idempotent and safe when already stopped; the sample accumulator is
left unchanged by `stopCapture` and is instead reset to empty by the
next `startCapture`, so no stale samples leak into a new session. -/
theorem stopCapture_idempotent_releases (s : CaptureState) :
    (stopCapture s).sourceRef = false ∧
    (stopCapture s).workletNodeRef = false ∧
    (stopCapture s).audioContextRef = false ∧
    (stopCapture s).streamRef = false ∧
    (stopCapture s).isCapturing = false ∧
    (stopCapture s).isReady = false ∧
    stopCapture (stopCapture s) = stopCapture s ∧
    (stopCapture s).sampleAccumulator = s.sampleAccumulator ∧
    (s.isCapturing = false → (startCapture s).sampleAccumulator = []) := by
  refine ⟨rfl, rfl, rfl, rfl, rfl, rfl, rfl, rfl, ?_⟩
  intro h
  rw [startCapture, if_neg (by simp [h])]

/-- Witness for C10 (amended) at a concrete stopped state with a stale
sample: stopping again is a no-op on the flags and restarting resets
the accumulator. -/
theorem stopCapture_idempotent_releases_witness :
    (stopCapture stoppedCapture).isCapturing = false ∧
    (startCapture stoppedCapture).sampleAccumulator = [] :=
  ⟨(stopCapture_idempotent_releases stoppedCapture).2.2.2.2.1,
   (stopCapture_idempotent_releases stoppedCapture).2.2.2.2.2.2.2.2 rfl⟩


lemma lg2F_spec : ∀ fuel n, 0 < n → n ≤ fuel →
    2 ^ lg2F fuel n ≤ n ∧ n < 2 ^ (lg2F fuel n + 1) := by
  intro fuel
  induction fuel with
  | zero => intro n h1 h2; omega
  | succ fuel ih =>
    intro n h1 h2
    rw [lg2F]
    by_cases hn : n ≤ 1
    · have : n = 1 := by omega
      subst this
      simp
    · simp only [if_neg hn]
      obtain ⟨ihl, ihr⟩ := ih (n / 2) (by omega) (by omega)
      rw [pow_succ] at ihr ⊢
      rw [pow_succ]
      omega

lemma lg2_spec (n : Nat) (h : 0 < n) : 2 ^ lg2 n ≤ n ∧ n < 2 ^ (lg2 n + 1) :=
  lg2F_spec n n h (Nat.le_refl n)

lemma ratLog2_spec (a b : Nat) (ha : 0 < a) (hb : 0 < b) :
    (2 : ℚ) ^ ratLog2 a b ≤ (a : ℚ) / b ∧ (a : ℚ) / b < 2 ^ (ratLog2 a b + 1) := by
  obtain ⟨ha1, ha2⟩ := lg2_spec a ha
  obtain ⟨hb1, hb2⟩ := lg2_spec b hb
  have haQ : (0 : ℚ) < a := by exact_mod_cast ha
  have hbQ : (0 : ℚ) < b := by exact_mod_cast hb
  have qa1 : (2 : ℚ) ^ ((lg2 a : ℤ)) ≤ a := by
    rw [zpow_natCast]; exact_mod_cast ha1
  have qa2 : (a : ℚ) < 2 ^ ((lg2 a : ℤ) + 1) := by
    have hc : ((lg2 a : ℤ) + 1) = ((lg2 a + 1 : ℕ) : ℤ) := by push_cast; ring
    rw [hc, zpow_natCast]; exact_mod_cast ha2
  have qb1 : (2 : ℚ) ^ ((lg2 b : ℤ)) ≤ b := by
    rw [zpow_natCast]; exact_mod_cast hb1
  have qb2 : (b : ℚ) < 2 ^ ((lg2 b : ℤ) + 1) := by
    have hc : ((lg2 b : ℤ) + 1) = ((lg2 b + 1 : ℕ) : ℤ) := by push_cast; ring
    rw [hc, zpow_natCast]; exact_mod_cast hb2
  have F1 : (2 : ℚ) ^ ((lg2 a : ℤ) - (lg2 b : ℤ) - 1) < (a : ℚ) / b := by
    rw [lt_div_iff₀ hbQ]
    calc (2 : ℚ) ^ ((lg2 a : ℤ) - (lg2 b : ℤ) - 1) * b
        < 2 ^ ((lg2 a : ℤ) - (lg2 b : ℤ) - 1) * 2 ^ ((lg2 b : ℤ) + 1) :=
          mul_lt_mul_of_pos_left qb2 (by positivity)
      _ = 2 ^ ((lg2 a : ℤ)) := by
          rw [← zpow_add₀ (two_ne_zero)]
          congr 1
          ring
      _ ≤ a := qa1
  have F2 : (a : ℚ) / b < 2 ^ ((lg2 a : ℤ) - (lg2 b : ℤ) + 1) := by
    rw [div_lt_iff₀ hbQ]
    calc (a : ℚ) < 2 ^ ((lg2 a : ℤ) + 1) := qa2
      _ = 2 ^ ((lg2 a : ℤ) - (lg2 b : ℤ) + 1) * 2 ^ ((lg2 b : ℤ)) := by
          rw [← zpow_add₀ (two_ne_zero)]
          congr 1
          ring
      _ ≤ 2 ^ ((lg2 a : ℤ) - (lg2 b : ℤ) + 1) * b :=
          mul_le_mul_of_nonneg_left qb1 (by positivity)
  have Tge : 0 ≤ (lg2 a : ℤ) - (lg2 b : ℤ) →
      (b * 2 ^ ((lg2 a : ℤ) - (lg2 b : ℤ)).toNat ≤ a ↔
        (2 : ℚ) ^ ((lg2 a : ℤ) - (lg2 b : ℤ)) ≤ (a : ℚ) / b) := by
    intro hd
    rw [le_div_iff₀ hbQ]
    have hcast : (2 : ℚ) ^ ((lg2 a : ℤ) - (lg2 b : ℤ)) =
        ((2 ^ ((lg2 a : ℤ) - (lg2 b : ℤ)).toNat : ℕ) : ℚ) := by
      push_cast
      rw [← zpow_natCast, Int.toNat_of_nonneg hd]
    rw [hcast, mul_comm]
    constructor
    · intro h
      exact_mod_cast h
    · intro h
      exact_mod_cast h
  have Tlt : (lg2 a : ℤ) - (lg2 b : ℤ) < 0 →
      (b ≤ a * 2 ^ (-((lg2 a : ℤ) - (lg2 b : ℤ))).toNat ↔
        (2 : ℚ) ^ ((lg2 a : ℤ) - (lg2 b : ℤ)) ≤ (a : ℚ) / b) := by
    intro hd
    have hcast : (2 : ℚ) ^ ((lg2 a : ℤ) - (lg2 b : ℤ)) =
        1 / ((2 ^ (-((lg2 a : ℤ) - (lg2 b : ℤ))).toNat : ℕ) : ℚ) := by
      push_cast
      rw [← zpow_natCast, Int.toNat_of_nonneg (by omega : 0 ≤ -((lg2 a : ℤ) - (lg2 b : ℤ)))]
      rw [one_div, ← zpow_neg, neg_neg]
    rw [hcast, div_le_div_iff₀ (by positivity) hbQ, one_mul]
    constructor
    · intro h
      exact_mod_cast h
    · intro h
      exact_mod_cast h
  simp only [ratLog2]
  split_ifs with h1 h2 h3
  · exact ⟨(Tge h1).mp h2, F2⟩
  · refine ⟨le_of_lt F1, ?_⟩
    have hlt : (a : ℚ) / b < 2 ^ ((lg2 a : ℤ) - (lg2 b : ℤ)) := by
      by_contra hcon
      exact h2 ((Tge h1).mpr (le_of_not_lt hcon))
    have hshift : (lg2 a : ℤ) - (lg2 b : ℤ) - 1 + 1 = (lg2 a : ℤ) - (lg2 b : ℤ) := by ring
    rw [hshift]
    exact hlt
  · exact ⟨(Tlt (by omega)).mp h3, F2⟩
  · refine ⟨le_of_lt F1, ?_⟩
    have hlt : (a : ℚ) / b < 2 ^ ((lg2 a : ℤ) - (lg2 b : ℤ)) := by
      by_contra hcon
      exact h3 ((Tlt (by omega)).mpr (le_of_not_lt hcon))
    have hshift : (lg2 a : ℤ) - (lg2 b : ℤ) - 1 + 1 = (lg2 a : ℤ) - (lg2 b : ℤ) := by ring
    rw [hshift]
    exact hlt


lemma roundRat_repr (a b : Nat) (ha : 0 < a) (hb : 0 < b) :
    ∃ num den : Nat, 0 < den ∧
      (num : ℚ) / den = ((a : ℚ) / b) / 2 ^ (ratLog2 a b - 52) ∧
      roundRat a b =
        ⟨if den < 2 * (num % den) ∨ (2 * (num % den) = den ∧ (num / den) % 2 = 1)
           then num / den + 1 else num / den, ratLog2 a b - 52⟩ := by
  have hcond : ¬(a = 0 ∨ b = 0) := by omega
  rw [roundRat, if_neg hcond]
  by_cases he : 0 ≤ ratLog2 a b - 52
  · refine ⟨a, b * 2 ^ (ratLog2 a b - 52).toNat, by positivity, ?_, ?_⟩
    · have hcast : ((b * 2 ^ (ratLog2 a b - 52).toNat : ℕ) : ℚ) =
          (b : ℚ) * 2 ^ (ratLog2 a b - 52) := by
        push_cast
        rw [← zpow_natCast (2 : ℚ), Int.toNat_of_nonneg he]
      rw [hcast, div_div]
    · simp only [if_pos he]
  · refine ⟨a * 2 ^ (-(ratLog2 a b - 52)).toNat, b, hb, ?_, ?_⟩
    · have hcast : ((a * 2 ^ (-(ratLog2 a b - 52)).toNat : ℕ) : ℚ) =
          (a : ℚ) * 2 ^ (-(ratLog2 a b - 52)) := by
        push_cast
        rw [← zpow_natCast (2 : ℚ), Int.toNat_of_nonneg (by omega : 0 ≤ -(ratLog2 a b - 52))]
      rw [hcast, div_eq_mul_inv (((a : ℚ)) / b), ← zpow_neg]
      ring
    · simp only [if_neg he]

lemma roundRat_close (a b : Nat) (ha : 0 < a) (hb : 0 < b) :
    |dyadQ (roundRat a b) - (a : ℚ) / b| ≤ ((a : ℚ) / b) / 2 ^ (53 : ℕ) := by
  obtain ⟨num, den, hden, hval, hrr⟩ := roundRat_repr a b ha hb
  have haQ : (0 : ℚ) < a := by exact_mod_cast ha
  have hbQ : (0 : ℚ) < b := by exact_mod_cast hb
  have hdenQ : (0 : ℚ) < den := by exact_mod_cast hden
  have hq : (0 : ℚ) < (a : ℚ) / b := div_pos haQ hbQ
  have he : (0 : ℚ) < (2 : ℚ) ^ (ratLog2 a b - 52) := by positivity
  have hu : ((2 : ℚ) ^ (ratLog2 a b - 52)) ≠ 0 := ne_of_gt he
  have hdm := Nat.div_add_mod num den
  have hrlt : num % den < den := Nat.mod_lt _ hden
  have hcastdm : ((den : ℚ)) * ((num / den : ℕ) : ℚ) + ((num % den : ℕ) : ℚ) = (num : ℚ) := by
    exact_mod_cast congrArg (fun k : ℕ => (k : ℚ)) hdm
  have hdne : (den : ℚ) ≠ 0 := ne_of_gt hdenQ
  have hscaled : ((a : ℚ) / b) / 2 ^ (ratLog2 a b - 52) =
      ((num / den : ℕ) : ℚ) + ((num % den : ℕ) : ℚ) / den := by
    rw [← hval]
    field_simp
    linear_combination -hcastdm
  have hf0 : (0 : ℚ) ≤ ((num % den : ℕ) : ℚ) / den := by positivity
  have hf1 : ((num % den : ℕ) : ℚ) / den < 1 := by
    rw [div_lt_one hdenQ]
    exact_mod_cast hrlt
  have hfactor : ∀ x : ℚ,
      x * 2 ^ (ratLog2 a b - 52) - (a : ℚ) / b =
        (x - ((a : ℚ) / b) / 2 ^ (ratLog2 a b - 52)) * 2 ^ (ratLog2 a b - 52) := by
    intro x
    rw [sub_mul, div_mul_cancel₀ _ hu]
  have hhalf : |dyadQ (roundRat a b) - (a : ℚ) / b| ≤ (1 / 2) * 2 ^ (ratLog2 a b - 52) := by
    rw [hrr]
    by_cases hcnd : den < 2 * (num % den) ∨ (2 * (num % den) = den ∧ (num / den) % 2 = 1)
    · simp only [dyadQ, if_pos hcnd]
      rw [hfactor, abs_mul, abs_of_pos he]
      refine mul_le_mul_of_nonneg_right ?_ (le_of_lt he)
      rw [hscaled]
      have hge : (1 : ℚ) / 2 ≤ ((num % den : ℕ) : ℚ) / den := by
        rw [div_le_div_iff₀ (by norm_num) hdenQ, one_mul]
        have : (den : ℚ) ≤ 2 * ((num % den : ℕ) : ℚ) := by
          rcases hcnd with hlt | ⟨heq, _⟩
          · exact_mod_cast Nat.le_of_lt hlt
          · exact_mod_cast Nat.le_of_eq heq.symm
        linarith
      rw [abs_le]
      constructor
      · push_cast
        linarith
      · push_cast
        linarith
    · simp only [dyadQ, if_neg hcnd]
      rw [hfactor, abs_mul, abs_of_pos he]
      refine mul_le_mul_of_nonneg_right ?_ (le_of_lt he)
      rw [hscaled]
      have hle : ((num % den : ℕ) : ℚ) / den ≤ 1 / 2 := by
        rw [div_le_div_iff₀ hdenQ (by norm_num)]
        have h2r : 2 * (num % den) ≤ den := by omega
        have : 2 * ((num % den : ℕ) : ℚ) ≤ (den : ℚ) := by exact_mod_cast h2r
        linarith
      rw [abs_le]
      constructor
      · linarith
      · linarith
  have hstep : (1 / 2 : ℚ) * 2 ^ (ratLog2 a b - 52) = 2 ^ (ratLog2 a b) / 2 ^ (53 : ℕ) := by
    have h1 : (1 / 2 : ℚ) = 2 ^ (-1 : ℤ) := by norm_num
    rw [h1, ← zpow_add₀ (two_ne_zero)]
    rw [← zpow_natCast (2 : ℚ) 53, div_eq_mul_inv, ← zpow_neg, ← zpow_add₀ (two_ne_zero)]
    congr 1
    ring
  have hL : (2 : ℚ) ^ (ratLog2 a b) ≤ (a : ℚ) / b := (ratLog2_spec a b ha hb).1
  calc |dyadQ (roundRat a b) - (a : ℚ) / b|
      ≤ (1 / 2) * 2 ^ (ratLog2 a b - 52) := hhalf
    _ = 2 ^ (ratLog2 a b) / 2 ^ (53 : ℕ) := hstep
    _ ≤ ((a : ℚ) / b) / 2 ^ (53 : ℕ) := by gcongr

lemma roundRat_pos (a b : Nat) (ha : 0 < a) (hb : 0 < b) : 0 < (roundRat a b).1 := by
  have hclose := roundRat_close a b ha hb
  have haQ : (0 : ℚ) < a := by exact_mod_cast ha
  have hbQ : (0 : ℚ) < b := by exact_mod_cast hb
  have hq : (0 : ℚ) < (a : ℚ) / b := div_pos haQ hbQ
  by_contra hcon
  have hm : (roundRat a b).1 = 0 := by omega
  rw [dyadQ, hm] at hclose
  simp only [Nat.cast_zero, zero_mul, zero_sub, abs_neg, abs_of_pos hq] at hclose
  have : ((a : ℚ) / b) / 2 ^ (53 : ℕ) < (a : ℚ) / b :=
    div_lt_self hq (by norm_num)
  linarith


lemma floorD_eq_floor (p : Nat × Int) : (floorD p : ℤ) = ⌊dyadQ p⌋ := by
  rcases p with ⟨m, e⟩
  rw [floorD, dyadQ]
  by_cases he : 0 ≤ e
  · simp only [if_pos he]
    have hcast : (m : ℚ) * 2 ^ e = ((m * 2 ^ e.toNat : ℕ) : ℚ) := by
      push_cast
      rw [← zpow_natCast (2 : ℚ), Int.toNat_of_nonneg he]
    rw [hcast, Int.floor_natCast]
  · simp only [if_neg he]
    have hcast : (m : ℚ) * 2 ^ e = (m : ℚ) / ((2 ^ (-e).toNat : ℕ) : ℚ) := by
      push_cast
      rw [← zpow_natCast (2 : ℚ), Int.toNat_of_nonneg (by omega : 0 ≤ -e),
        div_eq_mul_inv, ← zpow_neg, neg_neg]
    rw [hcast]
    have hnn : (0 : ℚ) ≤ (m : ℚ) / ((2 ^ (-e).toNat : ℕ) : ℚ) := by positivity
    rw [← Int.natCast_floor_eq_floor hnn, Nat.floor_div_nat (α := ℚ), Nat.floor_natCast]

lemma roundRat_int_val (a b c : Nat) (hb : 0 < b) (hc0 : 0 < c) (hc : c < 2 ^ 53)
    (hval : (a : ℚ) / b = (c : ℚ)) : dyadQ (roundRat a b) = (c : ℚ) := by
  have hbQ : (0 : ℚ) < b := by exact_mod_cast hb
  have ha : 0 < a := by
    by_contra hcon
    have ha0 : a = 0 := by omega
    rw [ha0] at hval
    simp only [Nat.cast_zero, zero_div] at hval
    have : c = 0 := by exact_mod_cast hval.symm
    omega
  obtain ⟨num, den, hden, hvalr, hrr⟩ := roundRat_repr a b ha hb
  have hdenQ : (0 : ℚ) < den := by exact_mod_cast hden
  have hdne : (den : ℚ) ≠ 0 := ne_of_gt hdenQ
  have hspec := ratLog2_spec a b ha hb
  rw [hval] at hspec
  have hL : ratLog2 a b ≤ 52 := by
    by_contra hcon
    push_neg at hcon
    have h1 : (2 : ℚ) ^ (53 : ℤ) ≤ 2 ^ (ratLog2 a b) :=
      zpow_le_zpow_right₀ one_le_two (by omega)
    have h2 : (c : ℚ) < 2 ^ (53 : ℤ) := by
      rw [show ((53 : ℤ)) = ((53 : ℕ) : ℤ) from rfl, zpow_natCast]
      exact_mod_cast hc
    linarith [hspec.1]
  set t := (-(ratLog2 a b - 52)).toNat with htdef
  have hts : ((t : ℤ)) = -(ratLog2 a b - 52) := Int.toNat_of_nonneg (by omega)
  have hpow : (2 : ℚ) ^ (ratLog2 a b - 52) * ((2 ^ t : ℕ) : ℚ) = 1 := by
    push_cast
    have hsum : (ratLog2 a b - 52) + (t : ℤ) = 0 := by omega
    rw [← zpow_natCast (2 : ℚ) t, ← zpow_add₀ (two_ne_zero), hsum, zpow_zero]
  have hnum : (num : ℚ) / den = (c : ℚ) * ((2 ^ t : ℕ) : ℚ) := by
    rw [hvalr, hval]
    rw [div_eq_iff (ne_of_gt (by positivity : (0 : ℚ) < (2 : ℚ) ^ (ratLog2 a b - 52)))]
    rw [mul_assoc, mul_comm ((2 ^ t : ℕ) : ℚ) ((2 : ℚ) ^ (ratLog2 a b - 52)), hpow, mul_one]
  have hnumN : num = den * (c * 2 ^ t) := by
    rw [div_eq_iff hdne] at hnum
    have : (num : ℚ) = ((den * (c * 2 ^ t) : ℕ) : ℚ) := by
      push_cast
      push_cast at hnum
      linear_combination hnum
    exact_mod_cast this
  have hm0 : num / den = c * 2 ^ t := by
    rw [hnumN]
    exact Nat.mul_div_cancel_left _ hden
  have hr0 : num % den = 0 := by
    rw [hnumN]
    exact Nat.mul_mod_right den _
  have hcond : ¬(den < 2 * (num % den) ∨ (2 * (num % den) = den ∧ (num / den) % 2 = 1)) := by
    rw [hr0]
    omega
  rw [hrr]
  simp only [dyadQ, if_neg hcond]
  rw [hm0]
  push_cast
  rw [mul_assoc, ← zpow_natCast (2 : ℚ) t, ← zpow_add₀ (two_ne_zero)]
  have hsum : (t : ℤ) + (ratLog2 a b - 52) = 0 := by omega
  rw [hsum, zpow_zero, mul_one]


lemma roundRat_floor_val (a b c d : Nat) (hb : 0 < b) (hd : 0 < d) (hc : c < 2 ^ 53)
    (hval : (a : ℚ) / b = (c : ℚ) / d) : floorD (roundRat a b) = c / d := by
  have hdQ : (0 : ℚ) < d := by exact_mod_cast hd
  have hbQ : (0 : ℚ) < b := by exact_mod_cast hb
  by_cases hc0 : c = 0
  · subst hc0
    have ha0 : a = 0 := by
      have hz : (a : ℚ) / b = 0 := by
        rw [hval]
        simp
      rcases div_eq_zero_iff.mp hz with h | h
      · exact_mod_cast h
      · exact absurd h (ne_of_gt hbQ)
    rw [ha0]
    have : roundRat 0 b = (0, 0) := by
      rw [roundRat, if_pos (Or.inl rfl)]
    rw [this]
    simp [floorD]
  · have hcpos : 0 < c := Nat.pos_of_ne_zero hc0
    have hqpos : (0 : ℚ) < (a : ℚ) / b := by
      rw [hval]
      have : (0 : ℚ) < c := by exact_mod_cast hcpos
      positivity
    have ha : 0 < a := by
      by_contra hcon
      have ha0 : a = 0 := by omega
      rw [ha0] at hqpos
      simp at hqpos
    by_cases hdvd : d ∣ c
    · have hcd : (a : ℚ) / b = ((c / d : ℕ) : ℚ) := by
        rw [hval, Nat.cast_div hdvd (ne_of_gt hdQ)]
      have hcdpos : 0 < c / d := Nat.div_pos (Nat.le_of_dvd hcpos hdvd) hd
      have hcdlt : c / d < 2 ^ 53 := lt_of_le_of_lt (Nat.div_le_self c d) hc
      have hdy := roundRat_int_val a b (c / d) hb hcdpos hcdlt hcd
      have hff := floorD_eq_floor (roundRat a b)
      rw [hdy, Int.floor_natCast] at hff
      exact_mod_cast hff
    · have hdmc := Nat.div_add_mod c d
      have hR0 : 0 < c % d := by
        rcases Nat.eq_zero_or_pos (c % d) with h | h
        · exact absurd (Nat.dvd_of_mod_eq_zero h) hdvd
        · exact h
      have hRd : c % d < d := Nat.mod_lt _ hd
      have hclose := roundRat_close a b ha hb
      rw [hval] at hclose
      obtain ⟨hcl1, hcl2⟩ := abs_le.mp hclose
      have hcastdm : (d : ℚ) * ((c / d : ℕ) : ℚ) + ((c % d : ℕ) : ℚ) = (c : ℚ) := by
        exact_mod_cast congrArg (fun k : ℕ => (k : ℚ)) hdmc
      have hqval : (c : ℚ) / d = ((c / d : ℕ) : ℚ) + ((c % d : ℕ) : ℚ) / d := by
        field_simp
        linear_combination -hcastdm
      have herr : ((c : ℚ) / d) / 2 ^ (53 : ℕ) < 1 / (d : ℚ) := by
        rw [div_div, div_lt_div_iff₀ (by positivity) hdQ, one_mul]
        have hlt : (c : ℚ) < ((2 ^ 53 : ℕ) : ℚ) := by exact_mod_cast hc
        calc (c : ℚ) * d < ((2 ^ 53 : ℕ) : ℚ) * d := by
              exact mul_lt_mul_of_pos_right hlt hdQ
          _ = (d : ℚ) * 2 ^ (53 : ℕ) := by
              push_cast
              ring
      have hRge : (1 : ℚ) / d ≤ ((c % d : ℕ) : ℚ) / d := by
        gcongr
        exact_mod_cast hR0
      have hRle : ((c % d : ℕ) : ℚ) / d ≤ ((d : ℚ) - 1) / d := by
        gcongr
        have : (c % d : ℕ) + 1 ≤ d := hRd
        have hcast : ((c % d : ℕ) : ℚ) + 1 ≤ (d : ℚ) := by exact_mod_cast this
        linarith
      have hsum : ((d : ℚ) - 1) / d + 1 / d = 1 := by
        field_simp
      have hlow : ((c / d : ℕ) : ℚ) ≤ dyadQ (roundRat a b) := by
        have h2 : ((c / d : ℕ) : ℚ) < (c : ℚ) / d - ((c : ℚ) / d) / 2 ^ (53 : ℕ) := by
          rw [hqval]
          have : ((c : ℚ) / d) / 2 ^ (53 : ℕ) < ((c % d : ℕ) : ℚ) / d := by
            calc ((c : ℚ) / d) / 2 ^ (53 : ℕ) < 1 / d := herr
              _ ≤ ((c % d : ℕ) : ℚ) / d := hRge
          linarith
        linarith
      have hhigh : dyadQ (roundRat a b) < ((c / d : ℕ) : ℚ) + 1 := by
        have h2 : (c : ℚ) / d + ((c : ℚ) / d) / 2 ^ (53 : ℕ) < ((c / d : ℕ) : ℚ) + 1 := by
          rw [hqval]
          have : ((c % d : ℕ) : ℚ) / d + ((c : ℚ) / d) / 2 ^ (53 : ℕ) < 1 := by
            calc ((c % d : ℕ) : ℚ) / d + ((c : ℚ) / d) / 2 ^ (53 : ℕ)
                < ((d : ℚ) - 1) / d + 1 / d := by
                  exact add_lt_add_of_le_of_lt hRle herr
              _ = 1 := hsum
          linarith
        linarith
      have hfl : ⌊dyadQ (roundRat a b)⌋ = ((c / d : ℕ) : ℤ) := by
        rw [Int.floor_eq_iff]
        constructor
        · exact_mod_cast hlow
        · push_cast
          exact hhigh
      have hff := floorD_eq_floor (roundRat a b)
      rw [hfl] at hff
      exact_mod_cast hff


lemma divByDyad_den_pos (n : Nat) (p : Nat × Int) (hp : 0 < p.1) :
    0 < (divByDyad n p).2 := by
  rw [divByDyad]
  split_ifs
  · positivity
  · exact hp

lemma divByDyad_val (n : Nat) (p : Nat × Int) (hp : 0 < p.1) :
    (((divByDyad n p).1 : ℕ) : ℚ) / (((divByDyad n p).2 : ℕ) : ℚ) =
      (n : ℚ) / dyadQ p := by
  have hpQ : (0 : ℚ) < p.1 := by exact_mod_cast hp
  rw [divByDyad, dyadQ]
  split_ifs with he
  · have hcast : ((p.1 * 2 ^ p.2.toNat : ℕ) : ℚ) = (p.1 : ℚ) * 2 ^ p.2 := by
      push_cast
      rw [← zpow_natCast (2 : ℚ), Int.toNat_of_nonneg he]
    rw [hcast]
  · push_cast
    rw [← zpow_natCast (2 : ℚ), Int.toNat_of_nonneg (by omega : 0 ≤ -p.2)]
    have hinv : (2 : ℚ) ^ (-p.2) * 2 ^ p.2 = 1 := by
      rw [← zpow_add₀ (two_ne_zero)]
      simp
    have hne2 : (p.1 : ℚ) * 2 ^ p.2 ≠ 0 := by positivity
    rw [div_eq_div_iff (ne_of_gt hpQ) hne2]
    linear_combination ((n : ℚ) * (p.1 : ℚ)) * hinv

lemma mulByDyad_den_pos (n : Nat) (p : Nat × Int) : 0 < (mulByDyad n p).2 := by
  rw [mulByDyad]
  split_ifs
  · norm_num
  · positivity

lemma mulByDyad_val (n : Nat) (p : Nat × Int) :
    (((mulByDyad n p).1 : ℕ) : ℚ) / (((mulByDyad n p).2 : ℕ) : ℚ) =
      (n : ℚ) * dyadQ p := by
  rw [mulByDyad, dyadQ]
  split_ifs with he
  · push_cast
    rw [← zpow_natCast (2 : ℚ), Int.toNat_of_nonneg he, div_one, mul_assoc]
  · push_cast
    rw [← zpow_natCast (2 : ℚ), Int.toNat_of_nonneg (by omega : 0 ≤ -p.2)]
    have hinv : (2 : ℚ) ^ (-p.2) * 2 ^ p.2 = 1 := by
      rw [← zpow_add₀ (two_ne_zero)]
      simp
    have hne : (2 : ℚ) ^ (-p.2) ≠ 0 := by positivity
    rw [div_eq_iff hne]
    linear_combination (-((n : ℚ) * (p.1 : ℚ))) * hinv


/-- Equivalence of the binary64 embedding with the exact-arithmetic
reference on the divisible-rate domain: when the source rate is a
positive multiple of the target rate (as in the deployed 48000 to
16000 configuration) and rate and buffer length are below 2^52, every
binary64 operation of the source rounds to an exact result or floors
to the exact quotient, so the two functions agree.  Outside this
domain they can differ (see the C3 counterexample). -/
lemma downsampleJS_eq_downsample (buffer : List Int) (Rs : Nat)
    (hdvd : TARGET_SAMPLE_RATE ∣ Rs) (hpos : 0 < Rs)
    (hRs : Rs < 2 ^ 52) (hN : buffer.length < 2 ^ 52) :
    downsampleJS buffer Rs = downsample buffer Rs := by
  obtain ⟨k, hk⟩ := hdvd
  have hT : TARGET_SAMPLE_RATE = 16000 := rfl
  have hk0 : 0 < k := by
    rcases Nat.eq_zero_or_pos k with h0 | h0
    · rw [h0, Nat.mul_zero] at hk
      omega
    · exact h0
  by_cases hr : Rs = TARGET_SAMPLE_RATE
  · rw [downsampleJS, downsample, if_pos hr, if_pos hr]
  · rw [downsampleJS, downsample, if_neg hr, if_neg hr]
    have hk53 : k < 2 ^ 53 := by
      have hle : k ≤ Rs := by
        rw [hk]
        exact Nat.le_mul_of_pos_left k (by rw [hT]; omega)
      calc k ≤ Rs := hle
        _ < 2 ^ 52 := hRs
        _ < 2 ^ 53 := by norm_num
    have hTpos : 0 < TARGET_SAMPLE_RATE := by rw [hT]; omega
    have hratio_val : dyadQ (roundRat Rs TARGET_SAMPLE_RATE) = (k : ℚ) := by
      apply roundRat_int_val Rs TARGET_SAMPLE_RATE k hTpos hk0 hk53
      rw [hk, hT]
      push_cast
      field_simp
    have hm_pos : 0 < (roundRat Rs TARGET_SAMPLE_RATE).1 :=
      roundRat_pos Rs TARGET_SAMPLE_RATE hpos hTpos
    have hNk : buffer.length * TARGET_SAMPLE_RATE / Rs = buffer.length / k := by
      rw [hk, hT, Nat.mul_comm buffer.length 16000]
      exact Nat.mul_div_mul_left _ _ (by omega)
    have hlen : floorDivD buffer.length (roundRat Rs TARGET_SAMPLE_RATE) =
        buffer.length * TARGET_SAMPLE_RATE / Rs := by
      rw [floorDivD, hNk]
      have hden := divByDyad_den_pos buffer.length _ hm_pos
      have hval := divByDyad_val buffer.length (roundRat Rs TARGET_SAMPLE_RATE) hm_pos
      rw [hratio_val] at hval
      exact roundRat_floor_val _ _ buffer.length k hden hk0
        (lt_trans hN (by norm_num)) hval
    show (List.range (floorDivD buffer.length (roundRat Rs TARGET_SAMPLE_RATE))).map
        (fun i => buffer.getD (floorMulD i (roundRat Rs TARGET_SAMPLE_RATE)) 0) =
      (List.range (buffer.length * TARGET_SAMPLE_RATE / Rs)).map
        (fun i => buffer.getD (i * Rs / TARGET_SAMPLE_RATE) 0)
    rw [hlen]
    apply List.map_congr_left
    intro i hi
    rw [List.mem_range, hNk] at hi
    have hik_le : i * k ≤ buffer.length := by
      have h1 : (i + 1) * k ≤ buffer.length := (Nat.le_div_iff_mul_le hk0).mp hi
      calc i * k ≤ (i + 1) * k := Nat.mul_le_mul_right k (by omega)
        _ ≤ buffer.length := h1
    have hik53 : i * k < 2 ^ 53 :=
      lt_trans (lt_of_le_of_lt hik_le hN) (by norm_num)
    have hidx : floorMulD i (roundRat Rs TARGET_SAMPLE_RATE) = i * k := by
      rw [floorMulD]
      have hden := mulByDyad_den_pos i (roundRat Rs TARGET_SAMPLE_RATE)
      have hval := mulByDyad_val i (roundRat Rs TARGET_SAMPLE_RATE)
      rw [hratio_val] at hval
      have hval2 : (((mulByDyad i (roundRat Rs TARGET_SAMPLE_RATE)).1 : ℕ) : ℚ) /
          (((mulByDyad i (roundRat Rs TARGET_SAMPLE_RATE)).2 : ℕ) : ℚ) =
          ((i * k : ℕ) : ℚ) / ((1 : ℕ) : ℚ) := by
        rw [hval]
        push_cast
        ring
      have := roundRat_floor_val _ _ (i * k) 1 hden (by omega) hik53 hval2
      rw [this, Nat.div_one]
    rw [hidx]
    have hidx2 : i * Rs / TARGET_SAMPLE_RATE = i * k := by
      rw [hk, hT, show i * (16000 * k) = 16000 * (i * k) from by ring]
      exact Nat.mul_div_cancel_left _ (by omega)
    rw [hidx2]


set_option maxRecDepth 100000 in
/-- Counterexample to C3 as stated: the claimed exact formulas are
violated by the source's binary64 arithmetic at valid rates.  At
Rs = 16100 a 483-sample buffer yields 479 output samples, not
⌊483·16000/16100⌋ = 480 (the double ratio 1.00625 is not exactly
representable and 483 divided by it rounds just below 480); at
Rs = 16016, output index 1000 reads input index 1000, not
⌊1000·16016/16000⌋ = 1001 (the double product 1000·1.001 rounds just
below 1001). -/
theorem downsample_nearest_neighbor_counterexample :
    (downsampleJS (List.replicate 483 (0 : Int)) 16100).length ≠
      (List.replicate 483 (0 : Int)).length * TARGET_SAMPLE_RATE / 16100 ∧
    (downsampleJS (List.replicate 483 (0 : Int)) 16100).length = 479 ∧
    (List.replicate 483 (0 : Int)).length * TARGET_SAMPLE_RATE / 16100 = 480 ∧
    (downsampleJS ((List.range 1100).map Int.ofNat) 16016).getD 1000 0 ≠
      ((List.range 1100).map Int.ofNat).getD (1000 * 16016 / TARGET_SAMPLE_RATE) 0 ∧
    (downsampleJS ((List.range 1100).map Int.ofNat) 16016).getD 1000 0 = 1000 ∧
    ((List.range 1100).map Int.ofNat).getD (1000 * 16016 / TARGET_SAMPLE_RATE) 0 = 1001 := by
  refine ⟨by decide, by decide, by decide, by decide, by decide, by decide⟩

/-- C3 (amended): nearest-neighbor contract on the divisible-rate
domain: whenever the source rate is a positive multiple of the target
rate 16000 — which covers every configuration the client uses (48000
capture, 16000 passthrough) — and rate and buffer length are below
2^52, the source's binary64 computation coincides with the exact
contract: the output has length ⌊N·16000/Rs⌋, output sample i is the
input sample at the in-range index ⌊i·Rs/16000⌋, at equal rates the
input is passed through unchanged, and the function is deterministic
(pure; stated below as congruence).  At non-multiple source rates the
binary64 arithmetic violates the exact formulas (see the
counterexample), so the contract cannot hold unrestricted. -/
theorem downsample_nearest_neighbor (buffer : List Int) (Rs : Nat)
    (hdvd : TARGET_SAMPLE_RATE ∣ Rs) (hpos : 0 < Rs)
    (hRs : Rs < 2 ^ 52) (hN : buffer.length < 2 ^ 52) :
    downsampleJS buffer Rs = downsample buffer Rs ∧
    (downsampleJS buffer Rs).length = buffer.length * TARGET_SAMPLE_RATE / Rs ∧
    (∀ i, i < (downsampleJS buffer Rs).length →
      i * Rs / TARGET_SAMPLE_RATE < buffer.length ∧
      (downsampleJS buffer Rs).getD i 0 = buffer.getD (i * Rs / TARGET_SAMPLE_RATE) 0) ∧
    (Rs = TARGET_SAMPLE_RATE → downsampleJS buffer Rs = buffer) ∧
    (∀ buffer2 Rs2, buffer2 = buffer → Rs2 = Rs →
      downsampleJS buffer2 Rs2 = downsampleJS buffer Rs) := by
  have heq := downsampleJS_eq_downsample buffer Rs hdvd hpos hRs hN
  refine ⟨heq, ?_, ?_, ?_, ?_⟩
  · rw [heq]
    exact downsample_length buffer Rs
  · intro i hi
    rw [heq] at hi ⊢
    exact downsample_index buffer Rs hpos i hi
  · intro hr
    rw [downsampleJS, if_pos hr]
  · intro buffer2 Rs2 hb2 hr2
    rw [hb2, hr2]

/-- Witness for C3 (amended) at a concrete input: a 6-sample buffer at
48000 Hz keeps samples 0 and 3; the contract is applied at output
index 1. -/
theorem downsample_nearest_neighbor_witness :
    TARGET_SAMPLE_RATE ∣ 48000 ∧
    (1 : Nat) < (downsampleJS [10, 20, 30, 40, 50, 60] 48000).length ∧
    (downsampleJS [10, 20, 30, 40, 50, 60] 48000).getD 1 0 =
      ([10, 20, 30, 40, 50, 60] : List Int).getD (1 * 48000 / TARGET_SAMPLE_RATE) 0 := by
  refine ⟨by decide, by decide, ?_⟩
  exact ((downsample_nearest_neighbor [10, 20, 30, 40, 50, 60] 48000 (by decide) (by decide)
    (by decide) (by decide)).2.2.1 1 (by decide)).2

/-- Counterexample to C8 as stated: at the deployed rate pair
48000 ≥ 16000 (where the binary64 arithmetic is exact: the ratio is
3.0), a nonempty one-sample buffer downsamples to the empty output,
so output emptiness is not equivalent to input emptiness. -/
theorem downsample_empty_iff_counterexample :
    TARGET_SAMPLE_RATE ≤ 48000 ∧
    downsampleJS [(1 : Int)] 48000 = [] ∧ [(1 : Int)] ≠ ([] : List Int) := by
  refine ⟨by decide, by decide, by decide⟩

/-- C8 (amended): on the divisible-rate domain (source rate a positive
multiple of the target rate, sizes below 2^52, covering every
configuration the client uses), the output of the source's resampler
is empty iff N·16000 < Rs where N is the input length: an empty input
always gives empty output, but a nonempty input with fewer than
Rs/16000 samples also gives empty output, so emptiness is not
equivalent to input emptiness. -/
theorem downsample_empty_iff (buffer : List Int) (Rs : Nat)
    (hdvd : TARGET_SAMPLE_RATE ∣ Rs) (hpos : 0 < Rs)
    (hRs : Rs < 2 ^ 52) (hN : buffer.length < 2 ^ 52) :
    (downsampleJS buffer Rs = [] ↔ buffer.length * TARGET_SAMPLE_RATE < Rs) := by
  rw [downsampleJS_eq_downsample buffer Rs hdvd hpos hRs hN]
  apply downsample_exact_empty_iff
  obtain ⟨k, hk⟩ := hdvd
  have hk0 : 0 < k := by
    rcases Nat.eq_zero_or_pos k with h0 | h0
    · rw [h0, Nat.mul_zero] at hk
      omega
    · exact h0
  calc TARGET_SAMPLE_RATE = TARGET_SAMPLE_RATE * 1 := by ring
    _ ≤ TARGET_SAMPLE_RATE * k := Nat.mul_le_mul_left _ hk0
    _ = Rs := hk.symm

/-- Witness for C8 (amended) at a concrete input: a 3-sample buffer at
48000 Hz, where 3·16000 is not smaller than 48000, so the output is
nonempty. -/
theorem downsample_empty_iff_witness :
    TARGET_SAMPLE_RATE ∣ 48000 ∧
    (downsampleJS [(1 : Int), 2, 3] 48000 = [] ↔
      ([(1 : Int), 2, 3] : List Int).length * TARGET_SAMPLE_RATE < 48000) :=
  ⟨by decide,
   downsample_empty_iff [(1 : Int), 2, 3] 48000 (by decide) (by decide) (by decide) (by decide)⟩

end Groovi
